import Mathlib

/-
Verification of the n-Queens evolutionary-algorithm engine (src/nqueens.py).

The Python module is embedded shallowly:
  * genotypes are `List Nat` (Python lists of ints; all values in these
    claims are the positive rows 1..n, so `Nat` with explicit `Int` casts
    where the source subtracts),
  * an `Individual` is its genotype together with its cached fitness,
  * the mutable `Population` object becomes an explicit `EAState` record
    threaded through the operations, and the module-level random draws
    (`random()`, `randint`, `sample`, `shuffle`) become explicit inputs:
    a `random()` draw is a rational in [0,1), a `randint`/index draw a
    `Nat`, and a `shuffle` outcome the shuffled list itself,
  * Python's float probabilities are modelled as rationals.

Object identity (Python references) is invisible to the value-level
embedding; the small `RefState` model towards the end of the definitions
captures exactly the reference behaviour of `crossover`/`mutate` that the
aliasing claim is about.
-/

namespace NQueens

/-- Module-level constant `N = 8` of nqueens.py. -/
def N : Nat := 8

/-- Module-level constant `P_RECOMB = 1`. -/
def P_RECOMB : ℚ := 1

/-- Module-level constant `P_MUTATION = 0.8`. -/
def P_MUTATION : ℚ := 0.8

/-- Module-level constant `POPULATION_SIZE = 100`. -/
def POPULATION_SIZE : Nat := 100

/-- Module-level constant `MAX_EVAL = 10000`. -/
def MAX_EVAL : Nat := 10000

/-- Embedding of `Individual.calculate_fitness` (nqueens.py lines 53-74).
The local `N = len(self.x)` shadows the module constant, exactly as in the
source.  `range(2, N)` is `List.range' 2 (N - 2)`.  Python's chained
comparison `0 <= idx_min <= N - 1` on the integer `idx_min = n - m` is
rendered as `m ≤ n ∧ n - m ≤ N - 1` (over `Nat`, `m ≤ n` is exactly
`0 ≤ n - m` over ℤ, and then truncated subtraction agrees with integer
subtraction); `0 <= idx_plus` is dropped because `n + m : Nat` is
non-negative by type.  The element comparisons are carried out in `Int`
because the source computes `self.x[n] - m`, which may be negative.
`checks` double-counts every conflicting pair, and the final `checks / 2`
is exact division (Python 2 semantics; the value is even). -/
def calculate_fitness (x : List Nat) : Nat :=
  let N := x.length
  ((List.range N).foldl (fun checks n =>
    (List.range' 2 (N - 2)).foldl (fun checks j =>
      let m := j - 1
      let idx_plus := n + m
      let use_plus := decide (idx_plus ≤ N - 1)
      let use_min := decide (m ≤ n ∧ n - m ≤ N - 1)
      if ¬ (use_plus = true ∨ use_min = true) then checks
      else
        let checks :=
          if use_plus = true ∧
              ((x.getD idx_plus 0 : Int) = (x.getD n 0 : Int) + (m : Int) ∨
               (x.getD idx_plus 0 : Int) = (x.getD n 0 : Int) - (m : Int)) then
            checks + 1
          else checks
        let checks :=
          if use_min = true ∧
              ((x.getD (n - m) 0 : Int) = (x.getD n 0 : Int) + (m : Int) ∨
               (x.getD (n - m) 0 : Int) = (x.getD n 0 : Int) - (m : Int)) then
            checks + 1
          else checks
        checks) checks) 0) / 2

/-- Modelled from the spec: the independent brute-force diagonal-conflict
counter the spec's testable properties cross-check against — the number of
unordered position pairs `(i, j)`, `i < j`, with
`|i - j| = |genotype[i] - genotype[j]|`. -/
def bruteConflicts (x : List Nat) : Nat :=
  ((List.range x.length).flatMap (fun i => (List.range x.length).map (fun j => (i, j)))).countP
    (fun p => decide (p.1 < p.2) &&
      (((p.2 : Int) - (p.1 : Int)).natAbs ==
        ((x.getD p.1 0 : Int) - (x.getD p.2 0 : Int)).natAbs))

/-- The base permutation `list(range(1, nqueens + 1))`, i.e. `[1, …, n]`. -/
def basePerm (n : Nat) : List Nat := List.range' 1 n

/-- Embedding of the `Individual` class: the genotype `x` together with the
cached `_fitness` computed in `__init__` / recomputed by `update`. -/
structure Individual where
  x : List Nat
  fitness : Nat
deriving Repr, DecidableEq

/-- `Individual(perm)`: stores the genotype and caches its fitness. -/
def mkIndividual (x : List Nat) : Individual :=
  ⟨x, calculate_fitness x⟩

/-- `Individual.update`: recompute the cached fitness from the genotype. -/
def Individual.update (ind : Individual) : Individual :=
  mkIndividual ind.x

/-- Default value used to totalise Python's indexing `lst[i]`; every use in
the theorems below is guarded by an in-range argument. -/
def dummyInd : Individual := mkIndividual []

/-- The immutable configuration of a `Population` object, i.e. the
constructor arguments of `Population.__init__` (the mutable parts,
`self.population` and `self.eval_count`, live in `EAState`). -/
structure Config where
  pop_size : Nat
  nqueens : Nat
  prob_mutation : ℚ
  prob_recomb : ℚ
  max_eval : Nat

/-- The mutable state of a `Population` object: `self.population` and
`self.eval_count`. -/
structure EAState where
  population : List Individual
  eval_count : Nat

/-- Embedding of `Population.initialize_population`: `pop_size` individuals,
each built from one outcome of `shuffle(list(range(1, nqueens + 1)))`
(the `i`-th shuffle outcome is supplied as `shuffles i`), and
`eval_count += 1` once per individual, starting from the fresh counter 0
set in `__init__`. -/
def init_population (cfg : Config) (shuffles : Nat → List Nat) : EAState :=
  ⟨(List.range cfg.pop_size).map (fun i => mkIndividual (shuffles i)), cfg.pop_size⟩

/-- The random draws consumed by one `Population.mutate` call: the
`random()` draw `r`, and the positions `s` and `t`, where `t` is the value
produced by the rejection loop `while s == t: t = randint(...)` (for
`nqueens ≥ 2` that loop terminates with probability 1 and returns some
`t ≠ s`; the draw is modelled by its result). -/
structure MutRand where
  r : ℚ
  s : Nat
  t : Nat

/-- Python's simultaneous assignment `x[s], x[t] = x[t], x[s]`. -/
def swapAt (x : List Nat) (s t : Nat) : List Nat :=
  (x.set s (x.getD t 0)).set t (x.getD s 0)

/-- Embedding of `Population.mutate`: with probability `prob_mutation` swap
two positions of the genotype; in every case call `ind.update()` (recompute
the cached fitness) and do `self.eval_count += 1`.  Returns the updated
individual together with the updated counter. -/
def mutate (cfg : Config) (d : MutRand) (ind : Individual) (eval_count : Nat) :
    Individual × Nat :=
  ((if d.r < cfg.prob_mutation then mkIndividual (swapAt ind.x d.s d.t)
    else ind.update), eval_count + 1)

/-- Python's tuple comparison on `(fitness, index)` pairs, as used by
`sorted((e, i) for i, e in enumerate(F))`: lexicographic order. -/
def lexLe (a b : Nat × Nat) : Bool :=
  a.1 < b.1 || (a.1 == b.1 && a.2 ≤ b.2)

/-- `sorted((e, i) for i, e in enumerate(F))`: the `(fitness, index)` pairs
of a fitness list, sorted lexicographically. -/
def selection_order (F : List Nat) : List (Nat × Nat) :=
  (F.enum.map (fun p => (p.2, p.1))).mergeSort lexLe

/-- Embedding of `Population.parent_selection`: `S = sample(population, 5)`
is modelled by the drawn index list `sampleIdx` (5 distinct positions);
rank the sample's `(fitness, sample index)` pairs and return the two best
sample members. -/
def parent_selection (pop : List Individual) (sampleIdx : List Nat) :
    Individual × Individual :=
  let S := sampleIdx.map (fun i => pop.getD i dummyInd)
  let L := selection_order (S.map (fun x => x.fitness))
  (S.getD (L.getD 0 (0, 0)).2 dummyInd, S.getD (L.getD 1 (0, 0)).2 dummyInd)

/-- Embedding of `Population.survival_selection`: join the population and
the offspring, sort the `(fitness, index)` pairs, and keep the `pop_size`
best entries of `joined`, in sorted order. -/
def survival_selection (pop off : List Individual) (pop_size : Nat) :
    List Individual :=
  let joined := pop ++ off
  let L := selection_order (joined.map (fun x => x.fitness))
  (List.range pop_size).map (fun i => joined.getD (L.getD i (0, 0)).2 dummyInd)

/-- The cut-and-crossfill inner loop of `Population.crossover`:
`for i in donor: if not i in off: off.append(i)`, starting from the copied
prefix `pre`.  Membership is tested against the growing list, as in the
source. -/
def crossfill (pre : List Nat) (donor : List Nat) : List Nat :=
  donor.foldl (fun acc i => if i ∈ acc then acc else acc ++ [i]) pre

/-- Embedding of `Population.crossover`.  `s` is the `random()` draw and
`r` the `randint` cut draw.  If recombination does not fire the two parents
themselves are returned (`return p1, p2` — no copy is made; the reference
consequences are modelled by `crossover_ref` below).  Otherwise the two
cut-and-crossfill offspring are built and `self.eval_count += 2`. -/
def crossover (cfg : Config) (s : ℚ) (r : Nat) (p1 p2 : Individual)
    (eval_count : Nat) : Individual × Individual × Nat :=
  if ¬ (s < cfg.prob_recomb) then (p1, p2, eval_count)
  else
    let seg1 := p1.x.take r
    let seg2 := p2.x.take r
    let off1 := crossfill seg1 p2.x
    let off2 := crossfill seg2 p1.x
    (mkIndividual off1, mkIndividual off2, eval_count + 2)

/-- The set of cut points the `randint(1, N-1)` call in
`Population.crossover` can produce.  The source uses the module-level
constant `N` here (not `self.nqueens`), so the set does not depend on the
configured board size; the `cfg` argument records that the claim quantifies
over configurations. -/
def crossover_cut_choices (cfg : Config) : Finset Nat :=
  Finset.Icc 1 (N - 1)

/-- Embedding of `Population.have_solution`. -/
def have_solution (st : EAState) : Bool :=
  st.population.any (fun x => x.fitness == 0)

/-- Embedding of the state-relevant part of `print_status`: it reads the
cached fitness values of the population, computes the mean/variance
statistics and the best individual, and leaves the engine state untouched
(in particular it never touches `eval_count`).  Returned: the unchanged
state, the mean, the variance, and the best individual. -/
def print_status (st : EAState) (it : Nat) : EAState × ℚ × ℚ × Individual :=
  let F := st.population.map (fun x => x.fitness)
  let L := selection_order F
  let mean : ℚ := ((F.foldl (· + ·) 0 : Nat) : ℚ) / (F.length : ℚ)
  let variance : ℚ :=
    (((F.map (fun f => f * f)).foldl (· + ·) 0 : Nat) : ℚ) / (F.length : ℚ) - mean * mean
  (st, mean, variance, st.population.getD (L.getD 0 (0, 0)).2 dummyInd)

/-- The random draws consumed by one iteration of `Population.evolve`. -/
structure GenRand where
  sampleIdx : List Nat
  s : ℚ
  cut : Nat
  m1 : MutRand
  m2 : MutRand

/-- One iteration of the `while` loop in `Population.evolve`:
`print_status`, parent selection, crossover, mutation of both offspring,
survival selection.  Note that when recombination does not fire, the Python
offspring alias the parent objects, so the in-place mutation also rewrites
the aliased population entries; that reference-level effect is modelled
separately by `RefState`/`crossover_ref` (claim C3) and does not influence
the evaluation counting or the loop structure studied here. -/
def step (cfg : Config) (g : GenRand) (it : Nat) (st : EAState) : EAState :=
  let st0 := (print_status st it).1
  let ps := parent_selection st0.population g.sampleIdx
  let co := crossover cfg g.s g.cut ps.1 ps.2 st0.eval_count
  let m1 := mutate cfg g.m1 co.1 co.2.2
  let m2 := mutate cfg g.m2 co.2.1 m1.2
  ⟨survival_selection st0.population [m1.1, m2.1] cfg.pop_size, m2.2⟩

/-- The `while` loop of `Population.evolve`:
`while (not have_solution()) and (eval_count < max_eval)`.  The generation
counter `it` is threaded exactly as in the source.  Lean accepts this
definition by well-founded recursion on `max_eval - eval_count` (each
iteration performs two mutations, so the counter grows by at least 2);
totality of this function is the termination half of claim C7. -/
def evolve_loop (cfg : Config) (rand : Nat → GenRand) (it : Nat) (st : EAState) :
    EAState :=
  if have_solution st = false ∧ st.eval_count < cfg.max_eval then
    evolve_loop cfg rand (it + 1) (step cfg (rand it) it st)
  else st
termination_by cfg.max_eval - st.eval_count
decreasing_by
  rename_i h
  have h2 : (step cfg (rand it) it st).eval_count = st.eval_count + 2 ∨
      (step cfg (rand it) it st).eval_count = st.eval_count + 4 := by
    simp only [step, mutate, crossover, print_status]
    split
    · left; rfl
    · right; rfl
  omega

/-- `Population.evolve` on a freshly constructed `Population` (the
constructor runs `initialize_population`); the trailing `print_status`
calls after the loop do not change the state. -/
def evolve (cfg : Config) (shuffles : Nat → List Nat) (rand : Nat → GenRand) :
    EAState :=
  evolve_loop cfg rand 0 (init_population cfg shuffles)

/-!  Reference-semantics model of `crossover`/`mutate`.

Python passes `Individual` objects by reference and `Population.mutate`
rewrites `ind.x` in place, so object identity is observable: the heap below
holds the genotype cells, and the population and the crossover results are
references (cell indices) into it. -/

/-- A heap of genotype cells plus the population as references into it. -/
structure RefState where
  heap : List (List Nat)
  pop : List Nat

/-- `Population.crossover` at the reference level.  When recombination does
not fire, the source executes `return p1, p2`: the very same references are
handed back and no new cell is allocated.  When it fires, two fresh cells
holding the crossfill offspring are allocated. -/
def crossover_ref (st : RefState) (s : ℚ) (prob_recomb : ℚ) (r : Nat)
    (p1 p2 : Nat) : RefState × Nat × Nat :=
  if ¬ (s < prob_recomb) then (st, p1, p2)
  else
    let g1 := st.heap.getD p1 []
    let g2 := st.heap.getD p2 []
    (⟨st.heap ++ [crossfill (g1.take r) g2, crossfill (g2.take r) g1], st.pop⟩,
      st.heap.length, st.heap.length + 1)

/-- `Population.mutate` at the reference level (the firing case): the cell
referenced by `o` is rewritten in place by the position swap. -/
def mutate_ref (st : RefState) (o : Nat) (s t : Nat) : RefState :=
  ⟨st.heap.set o (swapAt (st.heap.getD o []) s t), st.pop⟩

/-- Concrete individual used by witness instances. -/
def indA : Individual := ⟨[1, 2], 3⟩

/-- Concrete individual used by witness instances. -/
def indB : Individual := ⟨[2, 1], 1⟩

/-- Concrete individual used by witness instances. -/
def indC : Individual := ⟨[1, 2], 2⟩

/-!  Theorems.  Helper lemmas come first; the claim theorems are named
after the behaviour they settle. -/

/-- Unfolding of one crossfill iteration. -/
theorem crossfill_cons (pre : List Nat) (b : Nat) (bs : List Nat) :
    crossfill pre (b :: bs) = crossfill (if b ∈ pre then pre else pre ++ [b]) bs := rfl

/-- An element is in the crossfill result iff it is in the prefix or in the
donor. -/
theorem mem_crossfill (pre donor : List Nat) (a : Nat) :
    a ∈ crossfill pre donor ↔ a ∈ pre ∨ a ∈ donor := by
  induction donor generalizing pre with
  | nil => simp [crossfill]
  | cons b bs ih =>
    rw [crossfill_cons, ih]
    by_cases hb : b ∈ pre
    · rw [if_pos hb]
      simp only [List.mem_cons]
      constructor
      · rintro (h | h)
        · exact Or.inl h
        · exact Or.inr (Or.inr h)
      · rintro (h | h | h)
        · exact Or.inl h
        · exact Or.inl (h ▸ hb)
        · exact Or.inr h
    · rw [if_neg hb]
      simp only [List.mem_append, List.mem_singleton, List.mem_cons]
      tauto

/-- Crossfill preserves freedom from duplicates. -/
theorem nodup_crossfill (pre donor : List Nat) (h : pre.Nodup) :
    (crossfill pre donor).Nodup := by
  induction donor generalizing pre with
  | nil => exact h
  | cons b bs ih =>
    rw [crossfill_cons]
    apply ih
    by_cases hb : b ∈ pre
    · rwa [if_pos hb]
    · rw [if_neg hb]
      simp [List.nodup_append, h, hb]

/-- Pulling the element at position `j` to the front of a `set` is a
permutation-preserving move. -/
theorem cons_set_perm (l : List Nat) (j : Nat) (a : Nat) (h : j < l.length) :
    List.Perm (l.getD j 0 :: l.set j a) (a :: l) := by
  induction l generalizing j with
  | nil => simp at h
  | cons b bs ih =>
    cases j with
    | zero =>
      simpa using List.Perm.swap a b bs
    | succ j =>
      have h' : j < bs.length := by simpa using h
      have step1 : List.Perm (bs.getD j 0 :: b :: bs.set j a)
          (b :: bs.getD j 0 :: bs.set j a) := List.Perm.swap b (bs.getD j 0) _
      have step2 : List.Perm (b :: bs.getD j 0 :: bs.set j a) (b :: a :: bs) :=
        List.Perm.cons b (ih j h')
      have step3 : List.Perm (b :: a :: bs) (a :: b :: bs) := List.Perm.swap a b bs
      simpa using (step1.trans step2).trans step3

/-- Python's simultaneous swap of two in-range positions permutes the
list. -/
theorem swapAt_perm (x : List Nat) (s t : Nat) (hs : s < x.length)
    (ht : t < x.length) : List.Perm (swapAt x s t) x := by
  have ht' : t < (x.set s (x.getD t 0)).length := by simpa using ht
  have h1 := cons_set_perm (x.set s (x.getD t 0)) t (x.getD s 0) ht'
  have h2 := cons_set_perm x s (x.getD t 0) hs
  have hy : (x.set s (x.getD t 0)).getD t 0 = x.getD t 0 := by
    rcases eq_or_ne s t with rfl | hne
    · rw [List.getD_eq_getElem _ _ ht', List.getElem_set_self]
    · rw [List.getD_eq_getElem _ _ ht', List.getElem_set_ne hne]
      exact (List.getD_eq_getElem x 0 ht).symm
  rw [hy] at h1
  exact (h1.trans h2).cons_inv

/-- The base permutation has no duplicates. -/
theorem basePerm_nodup (n : Nat) : (basePerm n).Nodup := List.nodup_range' 1 n

/-- The length of a permutation of `1..n` is `n`. -/
theorem perm_basePerm_length {n : Nat} {g : List Nat}
    (h : List.Perm g (basePerm n)) : g.length = n := by
  simpa [basePerm] using h.length_eq

/-- Cut-and-crossfill of two permutations of `1..n`, at any cut point, is
again a permutation of `1..n`. -/
theorem crossfill_perm {n : Nat} {g1 g2 : List Nat} (r : Nat)
    (h1 : List.Perm g1 (basePerm n)) (h2 : List.Perm g2 (basePerm n)) :
    List.Perm (crossfill (g1.take r) g2) (basePerm n) := by
  have hbase : (basePerm n).Nodup := basePerm_nodup n
  have hg1 : g1.Nodup := h1.nodup_iff.mpr hbase
  have hpre : (g1.take r).Nodup := (List.take_sublist r g1).nodup hg1
  have hoff : (crossfill (g1.take r) g2).Nodup := nodup_crossfill _ _ hpre
  rw [List.perm_ext_iff_of_nodup hoff hbase]
  intro a
  rw [mem_crossfill]
  constructor
  · rintro (h | h)
    · exact h1.mem_iff.mp ((List.take_sublist r g1).mem h)
    · exact h2.mem_iff.mp h
  · intro h
    exact Or.inr (h2.mem_iff.mpr h)

/-- C5: every `Individual` produced by population initialization (the
shuffle outcomes being rearrangements of the base permutation), by
crossover — for any recombination draw, any two parents whose genotypes are
permutations of `1..n` and any cut point — or by mutation of such an
individual (with positions drawn from `[0, nqueens - 1]`, as the source
draws them) has a genotype that is a permutation of `1..n`. -/
theorem produced_genotypes_are_permutations (cfg : Config)
    (shuffles : Nat → List Nat) (s : ℚ) (r : Nat) (d : MutRand)
    (p1 p2 ind : Individual) (ec ec2 : Nat)
    (hsh : ∀ i, List.Perm (shuffles i) (basePerm cfg.nqueens))
    (hp1 : List.Perm p1.x (basePerm cfg.nqueens))
    (hp2 : List.Perm p2.x (basePerm cfg.nqueens))
    (hind : List.Perm ind.x (basePerm cfg.nqueens))
    (hs : d.s < cfg.nqueens) (ht : d.t < cfg.nqueens) :
    (∀ j ∈ (init_population cfg shuffles).population,
      List.Perm j.x (basePerm cfg.nqueens)) ∧
    List.Perm (crossover cfg s r p1 p2 ec).1.x (basePerm cfg.nqueens) ∧
    List.Perm (crossover cfg s r p1 p2 ec).2.1.x (basePerm cfg.nqueens) ∧
    List.Perm (mutate cfg d ind ec2).1.x (basePerm cfg.nqueens) := by
  refine ⟨?_, ?_, ?_, ?_⟩
  · intro j hj
    simp only [init_population, List.mem_map, List.mem_range] at hj
    obtain ⟨i, _, rfl⟩ := hj
    exact hsh i
  · rw [crossover]
    split
    · exact hp1
    · exact crossfill_perm r hp1 hp2
  · rw [crossover]
    split
    · exact hp2
    · exact crossfill_perm r hp2 hp1
  · rw [mutate]
    simp only []
    split
    · have hlen : ind.x.length = cfg.nqueens := perm_basePerm_length hind
      exact (swapAt_perm ind.x d.s d.t (hlen ▸ hs) (hlen ▸ ht)).trans hind
    · exact hind

/-- Witness for C5 at a concrete instance: board size 2, one individual,
shuffle outcome `[2, 1]`, parents `[1, 2]` and `[2, 1]`, cut point 1,
mutation positions 0 and 1. -/
theorem produced_genotypes_are_permutations_witness :
    (∀ j ∈ (init_population ⟨1, 2, 0.8, 1, 10⟩ (fun _ => [2, 1])).population,
      List.Perm j.x (basePerm 2)) ∧
    List.Perm (crossover ⟨1, 2, 0.8, 1, 10⟩ 0 1 ⟨[1, 2], 0⟩ ⟨[2, 1], 1⟩ 5).1.x
      (basePerm 2) ∧
    List.Perm (crossover ⟨1, 2, 0.8, 1, 10⟩ 0 1 ⟨[1, 2], 0⟩ ⟨[2, 1], 1⟩ 5).2.1.x
      (basePerm 2) ∧
    List.Perm (mutate ⟨1, 2, 0.8, 1, 10⟩ ⟨0, 0, 1⟩ ⟨[1, 2], 0⟩ 5).1.x
      (basePerm 2) := by
  have h21 : List.Perm ([2, 1] : List Nat) (basePerm 2) := by decide
  exact produced_genotypes_are_permutations ⟨1, 2, 0.8, 1, 10⟩ (fun _ => [2, 1]) 0 1
    ⟨0, 0, 1⟩ ⟨[1, 2], 0⟩ ⟨[2, 1], 1⟩ ⟨[1, 2], 0⟩ 5 5 (fun _ => h21)
    (by decide) h21 (by decide) (by decide) (by decide)

/-- C1 (code bug): `calculate_fitness` does not return the number of
unordered same-diagonal position pairs.  The inner loop `for j in
range(2, N)` only reaches offsets `m = j - 1 ≤ N - 2`, so a conflict
between positions at distance `N - 1` is never counted.  On the permutation
`[1, 2, 3]` of `1..3` the code returns 2 while the brute-force reference
count of pairs `(i, j)`, `i < j`, with `|i - j| = |x[i] - x[j]|` is 3 (the
corner pair `(0, 2)` is missed). -/
theorem calculate_fitness_misses_corner_diagonal :
    calculate_fitness [1, 2, 3] = 2 ∧ bruteConflicts [1, 2, 3] = 3 ∧
    List.Perm [1, 2, 3] (basePerm 3) := by decide

/-- C2 (code bug): fitness 0 does not imply a valid solution.  On the
permutation `[1, 2]` of `1..2` (whose two queens share a diagonal, so the
brute-force conflict count is 1) the code returns fitness 0, because the
only conflicting pair sits at position distance `N - 1 = 1` and the loop
`for j in range(2, 2)` is empty. -/
theorem fitness_zero_on_conflicted_board :
    calculate_fitness [1, 2] = 0 ∧ bruteConflicts [1, 2] = 1 ∧
    List.Perm [1, 2] (basePerm 2) := by decide

/-- C9: for board size 4, the fitness of the known solution `[2, 4, 1, 3]`
is 0 and the fitness of `[1, 2, 3, 4]` is strictly positive. -/
theorem fitness_on_known_4queens_boards :
    calculate_fitness [2, 4, 1, 3] = 0 ∧ 0 < calculate_fitness [1, 2, 3, 4] := by
  decide

/-- C4 (code bug): the crossover cut point is drawn by `randint(1, N-1)`
with the module-level constant `N = 8`, not `self.nqueens`.  With a
configured board size of 4, the unattainable-by-claim value 7 is a possible
cut; with a configured board size of 20, the claimed-attainable value 10 is
impossible. -/
theorem crossover_cut_ignores_configured_size :
    (7 ∈ crossover_cut_choices ⟨100, 4, 0.8, 1, 10000⟩ ∧
      7 ∉ Finset.Icc 1 (4 - 1)) ∧
    (10 ∉ crossover_cut_choices ⟨100, 20, 0.8, 1, 10000⟩ ∧
      10 ∈ Finset.Icc 1 (20 - 1)) := by
  constructor
  · exact ⟨by decide, by decide⟩
  · exact ⟨by decide, by decide⟩

/-- C3 (code bug): when recombination does not fire (`random()` draw 1 with
`p_recombination = 1` — `1 < 1` is false), `crossover` executes
`return p1, p2`: the offspring are the very parent references, not copies.
Mutating offspring 1 in place (swapping positions 0 and 1) therefore
rewrites the genotype of the first parent stored in the population: the
population's cell changes from `[1, 2]` to `[2, 1]`. -/
theorem crossover_no_fire_aliases_parents :
    (crossover_ref ⟨[[1, 2], [2, 1]], [0, 1]⟩ 1 1 1 0 1).2 = (0, 1) ∧
    (mutate_ref (crossover_ref ⟨[[1, 2], [2, 1]], [0, 1]⟩ 1 1 1 0 1).1
        (crossover_ref ⟨[[1, 2], [2, 1]], [0, 1]⟩ 1 1 1 0 1).2.1 0 1).heap.getD
      ((crossover_ref ⟨[[1, 2], [2, 1]], [0, 1]⟩ 1 1 1 0 1).1.pop.getD 0 0) [] =
      [2, 1] ∧
    ([2, 1] : List Nat) ≠ ([[1, 2], [2, 1]] : List (List Nat)).getD 0 [] := by
  have hnf : ¬ ((1 : ℚ) < 1) := lt_irrefl 1
  rw [crossover_ref, if_pos hnf]
  refine ⟨rfl, ?_, by decide⟩
  rw [mutate_ref]
  decide

/-- Transitivity of Python's tuple comparison. -/
theorem lexLe_trans (a b c : Nat × Nat) (hab : lexLe a b) (hbc : lexLe b c) :
    lexLe a c := by
  simp only [lexLe, Bool.or_eq_true, Bool.and_eq_true, decide_eq_true_eq,
    beq_iff_eq] at *
  omega

/-- Totality of Python's tuple comparison. -/
theorem lexLe_total (a b : Nat × Nat) : lexLe a b || lexLe b a := by
  simp only [lexLe, Bool.or_eq_true, Bool.and_eq_true, decide_eq_true_eq,
    beq_iff_eq]
  omega

/-- The sorted pair list is a rearrangement of the `(fitness, index)`
pairs. -/
theorem selection_order_perm (F : List Nat) :
    List.Perm (selection_order F) (F.enum.map (fun p => (p.2, p.1))) :=
  List.mergeSort_perm _ lexLe

/-- The sorted pair list has one entry per fitness value. -/
theorem selection_order_length (F : List Nat) :
    (selection_order F).length = F.length := by
  simp [selection_order]

/-- The `i`-th `(fitness, index)` pair before sorting. -/
theorem pairs_getElem (F : List Nat) (i : Nat)
    (h : i < (F.enum.map (fun p => (p.2, p.1))).length) :
    (F.enum.map (fun p => (p.2, p.1)))[i] = (F.getD i 0, i) := by
  have hF : i < F.length := by simpa using h
  rw [List.getElem_map, List.getElem_enum, List.getD_eq_getElem F 0 hF]

/-- Every entry of the sorted pair list is a genuine `(fitness, index)`
pair of the input list. -/
theorem mem_selection_order (F : List Nat) (p : Nat × Nat)
    (hp : p ∈ selection_order F) : p.2 < F.length ∧ p.1 = F.getD p.2 0 := by
  have hmem : p ∈ F.enum.map (fun q => (q.2, q.1)) :=
    (selection_order_perm F).mem_iff.mp hp
  rw [List.mem_iff_getElem] at hmem
  obtain ⟨i, hi, hpi⟩ := hmem
  rw [pairs_getElem F i hi] at hpi
  have hF : i < F.length := by simpa using hi
  cases hpi
  exact ⟨hF, rfl⟩

/-- The sorted pair list is sorted for Python's tuple comparison. -/
theorem selection_order_sorted (F : List Nat) :
    (selection_order F).Pairwise (fun a b => lexLe a b) :=
  List.sorted_mergeSort lexLe_trans lexLe_total _

/-- The original indices in the sorted pair list are pairwise distinct. -/
theorem selection_order_snd_nodup (F : List Nat) :
    ((selection_order F).map (fun p => p.2)).Nodup := by
  have hperm : List.Perm ((selection_order F).map (fun p => p.2))
      ((F.enum.map (fun p => (p.2, p.1))).map (fun p => p.2)) :=
    (selection_order_perm F).map _
  have heq : (F.enum.map (fun p => (p.2, p.1))).map (fun p => p.2) =
      List.range F.length := by
    rw [List.map_map]
    exact List.enum_map_fst F
  rw [heq] at hperm
  exact hperm.nodup_iff.mpr (List.nodup_range F.length)

/-- The sorted pair list is strictly sorted in the lexicographic order on
`(fitness, original index)`: ascending fitness, ties broken by the merge
position, so population entries precede offspring entries of equal
fitness. -/
theorem selection_order_strict (F : List Nat) :
    (selection_order F).Pairwise
      (fun a b => a.1 < b.1 ∨ (a.1 = b.1 ∧ a.2 < b.2)) := by
  have hne : (selection_order F).Pairwise (fun a b => a.2 ≠ b.2) :=
    List.pairwise_map.mp (selection_order_snd_nodup F)
  have hle := selection_order_sorted F
  refine (hle.and hne).imp ?_
  rintro a b ⟨hab, hne2⟩
  simp only [lexLe, Bool.or_eq_true, Bool.and_eq_true, decide_eq_true_eq,
    beq_iff_eq] at hab
  omega

/-- Reading a cached fitness through `getD` commutes with `map`. -/
theorem getD_map_fitness (l : List Individual) (i : Nat) (h : i < l.length) :
    (l.map (fun x => x.fitness)).getD i 0 = (l.getD i dummyInd).fitness := by
  have h' : i < (l.map (fun x => x.fitness)).length := by simpa using h
  rw [List.getD_eq_getElem _ _ h', List.getD_eq_getElem _ _ h, List.getElem_map]

/-- The `range`-indexed selection loop equals mapping over the sorted
prefix. -/
theorem range_getD_eq_take_map {α : Type} (L : List (Nat × Nat))
    (f : Nat × Nat → α) (k : Nat) (hk : k ≤ L.length) :
    (List.range k).map (fun i => f (L.getD i (0, 0))) = (L.take k).map f := by
  apply List.ext_getElem
  · simp [Nat.min_eq_left hk]
  · intro i h1 h2
    have hik : i < k := by simpa using h1
    have hiL : i < L.length := lt_of_lt_of_le hik hk
    rw [List.getElem_map, List.getElem_range, List.getD_eq_getElem _ _ hiL,
      List.getElem_map, List.getElem_take]

/-- The kept individuals are the image of the sorted prefix. -/
theorem survival_selection_eq_take (pop off : List Individual) (k : Nat)
    (hk : k ≤ (pop ++ off).length) :
    survival_selection pop off k =
      ((selection_order ((pop ++ off).map (fun x => x.fitness))).take k).map
        (fun p => (pop ++ off).getD p.2 dummyInd) := by
  rw [survival_selection]
  have hL : k ≤ (selection_order ((pop ++ off).map (fun x => x.fitness))).length := by
    rw [selection_order_length, List.length_map]
    exact hk
  exact range_getD_eq_take_map _ (fun p => (pop ++ off).getD p.2 dummyInd) k hL

/-- The cached fitness of the `i`-th kept individual is the fitness
component of the `i`-th sorted pair. -/
theorem survival_selection_fitness (pop off : List Individual) (k i : Nat)
    (hk : k ≤ (pop ++ off).length) (hi : i < k) :
    ((survival_selection pop off k).getD i dummyInd).fitness =
      ((selection_order ((pop ++ off).map (fun x => x.fitness))).getD i (0, 0)).1 := by
  have hiL : i < (selection_order ((pop ++ off).map (fun x => x.fitness))).length := by
    rw [selection_order_length, List.length_map]
    omega
  have hres : (survival_selection pop off k).getD i dummyInd =
      (pop ++ off).getD
        ((selection_order ((pop ++ off).map (fun x => x.fitness))).getD i (0, 0)).2
        dummyInd := by
    rw [survival_selection]
    have hmapl : i < ((List.range k).map (fun i =>
        (pop ++ off).getD
          ((selection_order ((pop ++ off).map (fun x => x.fitness))).getD i (0, 0)).2
          dummyInd)).length := by
      simpa using hi
    rw [List.getD_eq_getElem _ _ hmapl, List.getElem_map, List.getElem_range]
  have hmem : (selection_order ((pop ++ off).map (fun x => x.fitness))).getD i (0, 0) ∈
      selection_order ((pop ++ off).map (fun x => x.fitness)) := by
    rw [List.getD_eq_getElem _ _ hiL]
    exact List.getElem_mem hiL
  obtain ⟨h2, h1⟩ := mem_selection_order _ _ hmem
  have h2' : ((selection_order ((pop ++ off).map (fun x => x.fitness))).getD i (0, 0)).2 <
      (pop ++ off).length := by
    rw [List.length_map] at h2
    exact h2
  rw [hres, ← getD_map_fitness (pop ++ off) _ h2']
  exact h1.symm

/-- Fitness is monotone along the kept individuals. -/
theorem survival_selection_fitness_mono (pop off : List Individual) (k i j : Nat)
    (hk : k ≤ (pop ++ off).length) (hij : i ≤ j) (hj : j < k) :
    ((survival_selection pop off k).getD i dummyInd).fitness ≤
      ((survival_selection pop off k).getD j dummyInd).fitness := by
  rcases Nat.eq_or_lt_of_le hij with rfl | hlt
  · exact le_refl _
  · rw [survival_selection_fitness pop off k i hk (lt_of_lt_of_le hlt (le_of_lt hj)),
      survival_selection_fitness pop off k j hk hj]
    have hjL : j < (selection_order ((pop ++ off).map (fun x => x.fitness))).length := by
      rw [selection_order_length, List.length_map]
      omega
    have hiL : i < (selection_order ((pop ++ off).map (fun x => x.fitness))).length :=
      lt_trans hlt hjL
    have hstrict := selection_order_strict ((pop ++ off).map (fun x => x.fitness))
    rw [List.pairwise_iff_getElem] at hstrict
    have := hstrict i j hiL hjL hlt
    rw [List.getD_eq_getElem _ _ hiL, List.getD_eq_getElem _ _ hjL]
    omega

/-- C6: survival selection returns exactly `pop_size` individuals; one of
them has minimal fitness in the merged list `population ++ offspring`; the
kept individuals are the first `pop_size` entries of the merged list sorted
by the strictly increasing lexicographic order on `(fitness, merge index)`
— i.e. ascending fitness with ties broken by merge order, population
members before offspring. -/
theorem survival_selection_size_best_stable (pop off : List Individual)
    (pop_size : Nat) (hlen : pop.length = pop_size) (hpos : 0 < pop_size) :
    (survival_selection pop off pop_size).length = pop_size ∧
    (∃ b ∈ survival_selection pop off pop_size,
      ∀ y ∈ pop ++ off, b.fitness ≤ y.fitness) ∧
    survival_selection pop off pop_size =
      ((selection_order ((pop ++ off).map (fun x => x.fitness))).take pop_size).map
        (fun p => (pop ++ off).getD p.2 dummyInd) ∧
    (selection_order ((pop ++ off).map (fun x => x.fitness))).Pairwise
      (fun a b => a.1 < b.1 ∨ (a.1 = b.1 ∧ a.2 < b.2)) := by
  have hk : pop_size ≤ (pop ++ off).length := by
    rw [List.length_append]
    omega
  refine ⟨by simp [survival_selection], ?_,
    survival_selection_eq_take pop off pop_size hk, selection_order_strict _⟩
  have hreslen : (survival_selection pop off pop_size).length = pop_size := by
    simp [survival_selection]
  refine ⟨(survival_selection pop off pop_size).getD 0 dummyInd, ?_, ?_⟩
  · have h0 : 0 < (survival_selection pop off pop_size).length := by omega
    rw [List.getD_eq_getElem _ _ h0]
    exact List.getElem_mem h0
  · intro y hy
    rw [List.mem_iff_getElem] at hy
    obtain ⟨iy, hiy, rfl⟩ := hy
    rw [survival_selection_fitness pop off pop_size 0 hk hpos]
    have hiF : iy < ((pop ++ off).map (fun x => x.fitness)).length := by
      simpa using hiy
    have hpairs : iy < (((pop ++ off).map (fun x => x.fitness)).enum.map
        (fun p => (p.2, p.1))).length := by
      simpa using hiF
    have hq : (((pop ++ off).map (fun x => x.fitness)).getD iy 0, iy) ∈
        selection_order ((pop ++ off).map (fun x => x.fitness)) := by
      apply (selection_order_perm _).mem_iff.mpr
      rw [List.mem_iff_getElem]
      exact ⟨iy, hpairs, pairs_getElem _ iy hpairs⟩
    have hq1 : ((pop ++ off).map (fun x => x.fitness)).getD iy 0 =
        (pop ++ off)[iy].fitness := by
      rw [List.getD_eq_getElem _ _ hiF, List.getElem_map]
    have h0L : 0 < (selection_order ((pop ++ off).map (fun x => x.fitness))).length := by
      rw [selection_order_length, List.length_map]
      omega
    rcases hLl : selection_order ((pop ++ off).map (fun x => x.fitness)) with
      _ | ⟨p0, rest⟩
    · rw [hLl] at h0L
      simp at h0L
    · rw [hLl] at hq
      rw [hLl, List.getD_cons_zero]
      have hsorted := selection_order_sorted ((pop ++ off).map (fun x => x.fitness))
      rw [hLl] at hsorted
      rcases List.mem_cons.mp hq with h | h
      · rw [← h, ← hq1]
      · have hle := (List.pairwise_cons.mp hsorted).1 _ h
        simp only [lexLe, Bool.or_eq_true, Bool.and_eq_true, decide_eq_true_eq,
          beq_iff_eq] at hle
        rw [← hq1]
        omega

/-- Witness for C6 at a concrete instance: population of two individuals,
one offspring, `pop_size = 2`. -/
theorem survival_selection_size_best_stable_witness :
    (survival_selection [indA, indB] [indC] 2).length = 2 ∧
    (∃ b ∈ survival_selection [indA, indB] [indC] 2,
      ∀ y ∈ [indA, indB] ++ [indC], b.fitness ≤ y.fitness) ∧
    survival_selection [indA, indB] [indC] 2 =
      ((selection_order (([indA, indB] ++ [indC]).map (fun x => x.fitness))).take 2).map
        (fun p => ([indA, indB] ++ [indC]).getD p.2 dummyInd) ∧
    (selection_order (([indA, indB] ++ [indC]).map (fun x => x.fitness))).Pairwise
      (fun a b => a.1 < b.1 ∨ (a.1 = b.1 ∧ a.2 < b.2)) :=
  survival_selection_size_best_stable [indA, indB] [indC] 2 (by decide) (by decide)

/-- C10: after survival selection the population's cached fitness sequence
is ascending, so the individual at index 0 has minimal fitness in the new
population. -/
theorem population_sorted_after_survival (pop off : List Individual)
    (pop_size : Nat) (hlen : pop.length = pop_size) (hpos : 0 < pop_size) :
    ((survival_selection pop off pop_size).map (fun x => x.fitness)).Pairwise
      (fun a b => a ≤ b) ∧
    ∀ y ∈ survival_selection pop off pop_size,
      ((survival_selection pop off pop_size).getD 0 dummyInd).fitness ≤
        y.fitness := by
  have hk : pop_size ≤ (pop ++ off).length := by
    rw [List.length_append]
    omega
  have hreslen : (survival_selection pop off pop_size).length = pop_size := by
    simp [survival_selection]
  constructor
  · rw [List.pairwise_iff_getElem]
    intro i j h1 h2 hij
    have hjres : j < (survival_selection pop off pop_size).length := by
      simpa using h2
    have hires : i < (survival_selection pop off pop_size).length := by
      simpa using h1
    rw [List.getElem_map, List.getElem_map,
      ← List.getD_eq_getElem _ dummyInd hires, ← List.getD_eq_getElem _ dummyInd hjres]
    exact survival_selection_fitness_mono pop off pop_size i j hk (le_of_lt hij)
      (by omega)
  · intro y hy
    rw [List.mem_iff_getElem] at hy
    obtain ⟨j, hj, rfl⟩ := hy
    rw [← List.getD_eq_getElem _ dummyInd hj]
    exact survival_selection_fitness_mono pop off pop_size 0 j hk (Nat.zero_le j)
      (by omega)

/-- Witness for C10 at a concrete instance. -/
theorem population_sorted_after_survival_witness :
    ((survival_selection [indA, indB] [indC] 2).map (fun x => x.fitness)).Pairwise
      (fun a b => a ≤ b) ∧
    ∀ y ∈ survival_selection [indA, indB] [indC] 2,
      ((survival_selection [indA, indB] [indC] 2).getD 0 dummyInd).fitness ≤
        y.fitness :=
  population_sorted_after_survival [indA, indB] [indC] 2 (by decide) (by decide)

/-- One loop iteration adds exactly 2 (recombination silent) or 4
(recombination fired) to the evaluation counter: two mutation calls at one
evaluation each, plus two offspring evaluations when crossover fires. -/
theorem step_eval_count (cfg : Config) (g : GenRand) (it : Nat) (st : EAState) :
    (step cfg g it st).eval_count = st.eval_count + 2 ∨
    (step cfg g it st).eval_count = st.eval_count + 4 := by
  simp only [step, mutate, crossover, print_status]
  split
  · left; rfl
  · right; rfl

/-- The loop only stops in a solved or budget-exhausted state. -/
theorem evolve_loop_exit (cfg : Config) (rand : Nat → GenRand) :
    ∀ (it : Nat) (st : EAState),
      have_solution (evolve_loop cfg rand it st) = true ∨
      cfg.max_eval ≤ (evolve_loop cfg rand it st).eval_count := by
  intro it st
  induction it, st using evolve_loop.induct cfg rand with
  | case1 it st hcond ih =>
    rw [evolve_loop.eq_def, if_pos hcond]
    exact ih
  | case2 it st hcond =>
    rw [evolve_loop.eq_def, if_neg hcond]
    rcases Bool.eq_false_or_eq_true (have_solution st) with h | h
    · exact Or.inl h
    · right
      rcases Nat.lt_or_ge st.eval_count cfg.max_eval with hl | hg
      · exact absurd ⟨h, hl⟩ hcond
      · exact hg

/-- The loop never decreases the evaluation counter. -/
theorem evolve_loop_mono (cfg : Config) (rand : Nat → GenRand) :
    ∀ (it : Nat) (st : EAState),
      st.eval_count ≤ (evolve_loop cfg rand it st).eval_count := by
  intro it st
  induction it, st using evolve_loop.induct cfg rand with
  | case1 it st hcond ih =>
    rw [evolve_loop.eq_def, if_pos hcond]
    refine le_trans ?_ ih
    rcases step_eval_count cfg (rand it) it st with h | h <;> omega
  | case2 it st hcond =>
    rw [evolve_loop.eq_def, if_neg hcond]

/-- Any bound that covers the entry counter and `max_eval + 3` bounds the
final counter: the last iteration starts below `max_eval` and adds at most
4. -/
theorem evolve_loop_bound (cfg : Config) (rand : Nat → GenRand) :
    ∀ (it : Nat) (st : EAState) (B : Nat), st.eval_count ≤ B →
      cfg.max_eval + 3 ≤ B → (evolve_loop cfg rand it st).eval_count ≤ B := by
  intro it st
  induction it, st using evolve_loop.induct cfg rand with
  | case1 it st hcond ih =>
    intro B h1 h2
    rw [evolve_loop.eq_def, if_pos hcond]
    apply ih
    · rcases step_eval_count cfg (rand it) it st with h | h <;> omega
    · exact h2
  | case2 it st hcond =>
    intro B h1 h2
    rw [evolve_loop.eq_def, if_neg hcond]
    exact h1

/-- C7: for any configuration with at least 2 queens and population size at
least 5, and any stream of random draws, `evolve` reaches a final state
(the loop is a total function, proved terminating by well-founded recursion
on the remaining budget) that is either solved or exhausted, and its final
evaluation counter never exceeds `max_eval + pop_size`. -/
theorem evolve_terminates_within_budget (cfg : Config)
    (shuffles : Nat → List Nat) (rand : Nat → GenRand)
    (hpop : 5 ≤ cfg.pop_size) (hn : 2 ≤ cfg.nqueens) :
    (have_solution (evolve cfg shuffles rand) = true ∨
      cfg.max_eval ≤ (evolve cfg shuffles rand).eval_count) ∧
    (evolve cfg shuffles rand).eval_count ≤ cfg.max_eval + cfg.pop_size := by
  constructor
  · exact evolve_loop_exit cfg rand 0 (init_population cfg shuffles)
  · apply evolve_loop_bound cfg rand 0 (init_population cfg shuffles)
    · show cfg.pop_size ≤ cfg.max_eval + cfg.pop_size
      omega
    · omega

/-- Witness for C7: board size 2, population size 5, zero budget — the run
is exhausted immediately after initialization with 5 ≤ 0 + 5 evaluations. -/
theorem evolve_terminates_within_budget_witness :
    (have_solution (evolve ⟨5, 2, 0.8, 1, 0⟩ (fun _ => [2, 1])
        (fun _ => ⟨[0, 1, 2, 3, 4], 1, 1, ⟨1, 0, 1⟩, ⟨1, 0, 1⟩⟩)) = true ∨
      0 ≤ (evolve ⟨5, 2, 0.8, 1, 0⟩ (fun _ => [2, 1])
        (fun _ => ⟨[0, 1, 2, 3, 4], 1, 1, ⟨1, 0, 1⟩, ⟨1, 0, 1⟩⟩)).eval_count) ∧
    (evolve ⟨5, 2, 0.8, 1, 0⟩ (fun _ => [2, 1])
      (fun _ => ⟨[0, 1, 2, 3, 4], 1, 1, ⟨1, 0, 1⟩, ⟨1, 0, 1⟩⟩)).eval_count ≤ 5 :=
  evolve_terminates_within_budget ⟨5, 2, 0.8, 1, 0⟩ (fun _ => [2, 1])
    (fun _ => ⟨[0, 1, 2, 3, 4], 1, 1, ⟨1, 0, 1⟩, ⟨1, 0, 1⟩⟩) (by decide) (by decide)

/-- C8: the evaluation counter bookkeeping.  Every `mutate` call adds
exactly 1 (also when no swap fires, since `update` recomputes the cached
fitness); a fired crossover adds exactly 2 (one per offspring built); a
silent crossover adds nothing (no individual is built); initialization adds
exactly 1 per individual, i.e. `pop_size` in total; status reporting
returns the state unchanged (it reads only cached fitness values — in
particular it never decrements the counter); and across any number of loop
iterations the counter never decreases.  Parent and survival selection do
not touch the counter at all (their embeddings neither receive nor return
it, matching the source). -/
theorem eval_count_accounting (cfg : Config) (d : MutRand) (ind : Individual)
    (ec : Nat) (sf sn : ℚ) (r : Nat) (p1 p2 : Individual)
    (shuffles : Nat → List Nat) (st : EAState) (it : Nat) (rand : Nat → GenRand)
    (hfire : sf < cfg.prob_recomb) (hnofire : ¬ (sn < cfg.prob_recomb)) :
    (mutate cfg d ind ec).2 = ec + 1 ∧
    (crossover cfg sf r p1 p2 ec).2.2 = ec + 2 ∧
    (crossover cfg sn r p1 p2 ec).2.2 = ec ∧
    (init_population cfg shuffles).eval_count = cfg.pop_size ∧
    (print_status st it).1 = st ∧
    st.eval_count ≤ (evolve_loop cfg rand it st).eval_count := by
  refine ⟨rfl, ?_, ?_, rfl, rfl, evolve_loop_mono cfg rand it st⟩
  · rw [crossover, if_neg (not_not_intro hfire)]
  · rw [crossover, if_pos hnofire]

/-- Witness for C8 at a concrete instance: `prob_recomb = 1`, firing draw 0,
silent draw 1. -/
theorem eval_count_accounting_witness :
    (mutate ⟨5, 2, 0.8, 1, 0⟩ ⟨1, 0, 1⟩ indA 7).2 = 7 + 1 ∧
    (crossover ⟨5, 2, 0.8, 1, 0⟩ 0 1 indA indB 7).2.2 = 7 + 2 ∧
    (crossover ⟨5, 2, 0.8, 1, 0⟩ 1 1 indA indB 7).2.2 = 7 ∧
    (init_population ⟨5, 2, 0.8, 1, 0⟩ (fun _ => [2, 1])).eval_count =
      (⟨5, 2, 0.8, 1, 0⟩ : Config).pop_size ∧
    (print_status ⟨[indA], 7⟩ 0).1 = ⟨[indA], 7⟩ ∧
    (⟨[indA], 7⟩ : EAState).eval_count ≤
      (evolve_loop ⟨5, 2, 0.8, 1, 0⟩
        (fun _ => ⟨[0, 1, 2, 3, 4], 1, 1, ⟨1, 0, 1⟩, ⟨1, 0, 1⟩⟩) 0
        ⟨[indA], 7⟩).eval_count :=
  eval_count_accounting ⟨5, 2, 0.8, 1, 0⟩ ⟨1, 0, 1⟩ indA 7 0 1 1 indA indB
    (fun _ => [2, 1]) ⟨[indA], 7⟩ 0
    (fun _ => ⟨[0, 1, 2, 3, 4], 1, 1, ⟨1, 0, 1⟩, ⟨1, 0, 1⟩⟩)
    zero_lt_one (lt_irrefl 1)

end NQueens
